import Mathlib

/-!
# Verification of tripleoclient utility helpers

Shallow embedding of the convergence pollers and deterministic helpers of
`tripleoclient/utils.py` (stack-event poller, provisioning-state poller,
introspection poller, admission checker, credential store, file checksum),
together with theorems settling the specified properties.
-/

set_option autoImplicit false

namespace Tripleo

/-! ## Stack convergence poller (`wait_for_stack_ready`)

A heat event as observed by the poller: an optional id (the code reads it
with `getattr(event, 'id', None)`), a resource name and a resource status
(read with `getattr(..., '')`). -/

structure Event where
  id : Option String
  resource_name : String
  resource_status : String
  deriving DecidableEq, Repr

/-- The inner scan of one fetched batch: the code iterates the events in
order; for an event whose `resource_name` equals the stack's own name it
compares the status against `<action>_COMPLETE` (return `True`) and
`<action>_FAILED` (return `False`); any other event just continues. -/
def scanEvents (stackName action : String) : List Event → Option Bool
  | [] => none
  | e :: rest =>
    if e.resource_name == stackName then
      if e.resource_status == action ++ "_COMPLETE" then some true
      else if e.resource_status == action ++ "_FAILED" then some false
      else scanEvents stackName action rest
    else scanEvents stackName action rest

/-- Marker update of one round: `marker = getattr(events[-1], 'id', None)`
is executed only when the batch is non-empty (`len(events) >= 1`). -/
def advanceMarker (marker : Option String) (batch : List Event) : Option String :=
  match batch.getLast? with
  | none => marker
  | some e => e.id

/-- One iteration of the `while True` loop: update the marker from the
batch (when non-empty) and scan the batch for a terminal stack event. -/
def pollRound (stackName action : String) (marker : Option String) (batch : List Event) :
    Option String × Option Bool :=
  if batch.length ≥ 1 then
    (advanceMarker marker batch, scanEvents stackName action batch)
  else
    (marker, none)

/-- The poll loop driven by a scripted sequence of event batches (one batch
per `get_events` call).  Returns the final marker together with
`some true` / `some false` when a terminal event was found, and `none` when
the script ran out without the loop terminating (the real loop would keep
polling). -/
def pollStack (stackName action : String) (marker : Option String) :
    List (List Event) → Option String × Option Bool
  | [] => (marker, none)
  | batch :: rest =>
    let step := pollRound stackName action marker batch
    match step.2 with
    | some b => (step.1, some b)
    | none => pollStack stackName action step.1 rest

/-- `wait_for_stack_ready`: fetch the stack first (`none` = not found
returns `False` immediately), then run the poll loop on the scripted
batches.  The stack's own name is taken from the fetched stack. -/
def wait_for_stack_ready (stack : Option String) (action : String)
    (marker : Option String) (batches : List (List Event)) : Option Bool :=
  match stack with
  | none => some false
  | some stackName => (pollStack stackName action marker batches).2

/-- An event is terminal for the poll when it carries the stack's own
resource name and a `<action>_COMPLETE` or `<action>_FAILED` status. -/
def isTerminalEvent (stackName action : String) (e : Event) : Bool :=
  e.resource_name == stackName &&
    (e.resource_status == action ++ "_COMPLETE" ||
     e.resource_status == action ++ "_FAILED")

theorem scanEvents_eq_none_of_no_terminal (stackName action : String) :
    ∀ (l : List Event), (∀ e ∈ l, isTerminalEvent stackName action e = false) →
      scanEvents stackName action l = none := by
  intro l hl
  induction l with
  | nil => rfl
  | cons e rest ih =>
    have he := hl e (List.mem_cons_self e rest)
    have hrest : ∀ e' ∈ rest, isTerminalEvent stackName action e' = false :=
      fun e' h' => hl e' (List.mem_cons_of_mem e h')
    simp only [isTerminalEvent, Bool.and_eq_false_iff, Bool.or_eq_false_iff] at he
    simp only [scanEvents]
    rcases he with hname | ⟨hc, hf⟩
    · simp [hname, ih hrest]
    · by_cases hn : e.resource_name == stackName
      · simp [hn, hc, hf, ih hrest]
      · simp [hn, ih hrest]

theorem scanEvents_append (stackName action : String) (l₁ l₂ : List Event) :
    scanEvents stackName action (l₁ ++ l₂) =
      match scanEvents stackName action l₁ with
      | some b => some b
      | none => scanEvents stackName action l₂ := by
  induction l₁ with
  | nil => simp [scanEvents]
  | cons e rest ih =>
    simp only [List.cons_append, scanEvents]
    by_cases hn : e.resource_name == stackName
    · by_cases hc : e.resource_status == action ++ "_COMPLETE"
      · simp [hn, hc]
      · by_cases hf : e.resource_status == action ++ "_FAILED"
        · simp [hn, hc, hf]
        · simp [hn, hc, hf, ih]
    · simp [hn, ih]

theorem pollStack_snd_eq_scan_join (stackName action : String) :
    ∀ (batches : List (List Event)) (marker : Option String),
      (pollStack stackName action marker batches).2 =
        scanEvents stackName action batches.flatten := by
  intro batches
  induction batches with
  | nil => intro marker; rfl
  | cons batch rest ih =>
    intro marker
    simp only [pollStack, pollRound, List.flatten]
    by_cases hb : batch.length ≥ 1
    · simp only [hb, if_pos]
      rw [scanEvents_append]
      cases hscan : scanEvents stackName action batch with
      | some b => simp [hscan]
      | none => simp [hscan, ih]
    · have : batch = [] := by
        cases batch with
        | nil => rfl
        | cons x xs => exact absurd (Nat.succ_le_succ (Nat.zero_le xs.length)) hb
      subst this
      simp only [ge_iff_le, List.length_nil, if_neg (by omega : ¬ (1 : Nat) ≤ 0)]
      simpa [scanEvents] using ih marker

theorem string_append_FAILED_ne_COMPLETE (action : String) :
    action ++ "_FAILED" ≠ action ++ "_COMPLETE" := by
  intro h
  have hd : (action ++ "_FAILED").data = (action ++ "_COMPLETE").data :=
    congrArg String.data h
  rw [String.data_append, String.data_append] at hd
  have := List.append_cancel_left hd
  simp at this

/-- C1 -- In `wait_for_stack_ready`, scanning the scripted batches in
order, the first event carrying the stack's own resource name and a
terminal status decides the outcome: `<action>_COMPLETE` makes the poller
return success, `<action>_FAILED` makes it return failure, and if no event
in any batch is terminal (in particular if every event belongs to another
resource) the poll never terminates. -/
theorem wait_for_stack_ready_first_terminal_decides
    (stackName action : String) (marker : Option String)
    (batches : List (List Event)) (pre post : List Event) (e : Event)
    (hsplit : batches.flatten = pre ++ e :: post)
    (hpre : ∀ e' ∈ pre, isTerminalEvent stackName action e' = false)
    (hterm : isTerminalEvent stackName action e = true) :
    (e.resource_status = action ++ "_COMPLETE" →
       wait_for_stack_ready (some stackName) action marker batches = some true) ∧
    (e.resource_status = action ++ "_FAILED" →
       wait_for_stack_ready (some stackName) action marker batches = some false) ∧
    (∀ (batches' : List (List Event)),
       (∀ e' ∈ batches'.flatten, isTerminalEvent stackName action e' = false) →
       wait_for_stack_ready (some stackName) action marker batches' = none) := by
  have hname : (e.resource_name == stackName) = true := by
    simp only [isTerminalEvent, Bool.and_eq_true] at hterm
    exact hterm.1
  have hmain : wait_for_stack_ready (some stackName) action marker batches =
      scanEvents stackName action (e :: post) := by
    show (pollStack stackName action marker batches).2 = _
    rw [pollStack_snd_eq_scan_join, hsplit, scanEvents_append,
      scanEvents_eq_none_of_no_terminal stackName action pre hpre]
  refine ⟨?_, ?_, ?_⟩
  · intro hc
    rw [hmain]
    simp [scanEvents, hname, hc]
  · intro hf
    have hne : (e.resource_status == action ++ "_COMPLETE") = false := by
      rw [beq_eq_false_iff_ne, hf]
      exact string_append_FAILED_ne_COMPLETE action
    rw [hmain]
    simp [scanEvents, hname, hne, hf, string_append_FAILED_ne_COMPLETE action]
  · intro batches' hnone
    show (pollStack stackName action marker batches').2 = none
    rw [pollStack_snd_eq_scan_join,
      scanEvents_eq_none_of_no_terminal stackName action batches'.flatten hnone]

/-- Witness for C1: a two-batch script whose only terminal event is a
`CREATE_COMPLETE` for the stack itself makes the poller return success. -/
theorem wait_for_stack_ready_first_terminal_decides_witness :
    wait_for_stack_ready (some "overcloud") "CREATE" none
      [[⟨some "e1", "Controller", "CREATE_IN_PROGRESS"⟩],
       [⟨some "e2", "overcloud", "CREATE_IN_PROGRESS"⟩,
        ⟨some "e3", "overcloud", "CREATE_COMPLETE"⟩]] = some true :=
  (wait_for_stack_ready_first_terminal_decides "overcloud" "CREATE" none
      [[⟨some "e1", "Controller", "CREATE_IN_PROGRESS"⟩],
       [⟨some "e2", "overcloud", "CREATE_IN_PROGRESS"⟩,
        ⟨some "e3", "overcloud", "CREATE_COMPLETE"⟩]]
      [⟨some "e1", "Controller", "CREATE_IN_PROGRESS"⟩,
       ⟨some "e2", "overcloud", "CREATE_IN_PROGRESS"⟩] []
      ⟨some "e3", "overcloud", "CREATE_COMPLETE"⟩
      (by decide) (by decide) (by decide)).1 rfl

theorem pollRound_fst (stackName action : String) (marker : Option String)
    (batch : List Event) :
    (pollRound stackName action marker batch).1 = advanceMarker marker batch := by
  cases batch with
  | nil => rfl
  | cons x xs =>
    have h1 : (1 : Nat) ≤ xs.length + 1 := Nat.succ_le_succ (Nat.zero_le _)
    simp [pollRound, h1]

theorem pollRound_snd (stackName action : String) (marker : Option String)
    (batch : List Event) :
    (pollRound stackName action marker batch).2 = scanEvents stackName action batch := by
  cases batch with
  | nil => rfl
  | cons x xs =>
    have h1 : (1 : Nat) ≤ xs.length + 1 := Nat.succ_le_succ (Nat.zero_le _)
    simp [pollRound, h1]

/-- C5 -- Marker invariant of `wait_for_stack_ready`: (1) after any round
with a non-empty batch the marker equals the id of the batch's last event,
whatever the batch's contents; (2) a round with an empty batch leaves the
marker unchanged (the marker is only ever moved to the id of the newest
fetched event, never rewound); (3) when the poll loop terminates, the final
marker equals the id of the last event of the batch in which the terminal
event was found, i.e. the id of the final event consumed. -/
theorem wait_for_stack_ready_marker_invariant (stackName action : String) :
    (∀ (marker : Option String) (batch : List Event) (e : Event),
       batch.getLast? = some e →
       (pollRound stackName action marker batch).1 = e.id) ∧
    (∀ (marker : Option String),
       (pollRound stackName action marker []).1 = marker) ∧
    (∀ (marker m : Option String) (batches : List (List Event)) (r : Bool),
       pollStack stackName action marker batches = (m, some r) →
       ∃ (front : List (List Event)) (batch : List Event)
         (rest : List (List Event)) (e : Event),
         batches = front ++ batch :: rest ∧
         (∀ b ∈ front, scanEvents stackName action b = none) ∧
         scanEvents stackName action batch = some r ∧
         batch.getLast? = some e ∧ m = e.id) := by
  refine ⟨?_, ?_, ?_⟩
  · intro marker batch e he
    rw [pollRound_fst]
    simp [advanceMarker, he]
  · intro marker
    rfl
  · intro marker m batches r
    induction batches generalizing marker with
    | nil =>
      intro h
      simp [pollStack] at h
    | cons batch rest ih =>
      intro h
      cases hscan : (pollRound stackName action marker batch).2 with
      | some b =>
        simp only [pollStack, hscan] at h
        rw [Prod.mk.injEq] at h
        obtain ⟨h1, h2⟩ := h
        have hb : b = r := by injection h2
        subst hb
        have hbatchne : batch ≠ [] := by
          intro hnil
          subst hnil
          simp [pollRound] at hscan
        obtain ⟨e, he⟩ : ∃ e, batch.getLast? = some e := by
          cases hlast : batch.getLast? with
          | none => exact absurd (List.getLast?_eq_none_iff.mp hlast) hbatchne
          | some e => exact ⟨e, rfl⟩
        refine ⟨[], batch, rest, e, by simp, by simp, ?_, he, ?_⟩
        · rw [← pollRound_snd stackName action marker batch, hscan]
        · rw [← h1, pollRound_fst]
          simp [advanceMarker, he]
      | none =>
        simp only [pollStack, hscan] at h
        obtain ⟨front, batch', rest', e, hsplit, hfront, hscan', hlast, hm⟩ := ih _ h
        have hbscan : scanEvents stackName action batch = none := by
          rw [← pollRound_snd stackName action marker batch, hscan]
        refine ⟨batch :: front, batch', rest', e, by simp [hsplit], ?_, hscan', hlast, hm⟩
        intro b hb
        rcases List.mem_cons.mp hb with hb | hb
        · subst hb; exact hbscan
        · exact hfront b hb

/-- Witness for C5: a round fetching a two-event batch moves the marker to
the id of the batch's last event. -/
theorem wait_for_stack_ready_marker_invariant_witness :
    (pollRound "overcloud" "CREATE" none
      [⟨some "e1", "Controller", "CREATE_IN_PROGRESS"⟩,
       ⟨some "e2", "Compute", "CREATE_IN_PROGRESS"⟩]).1 = some "e2" :=
  (wait_for_stack_ready_marker_invariant "overcloud" "CREATE").1 none
    [⟨some "e1", "Controller", "CREATE_IN_PROGRESS"⟩,
     ⟨some "e2", "Compute", "CREATE_IN_PROGRESS"⟩]
    ⟨some "e2", "Compute", "CREATE_IN_PROGRESS"⟩ rfl

/-! ## Provisioning-state poller (`wait_for_provision_state`)

The fetch script `fetch i` gives the result of `baremetal_client.node.get`
on the `i`-th attempt: `none` when the node cannot be found, `some s` for a
node whose `provision_state` is `s`. -/

/-- The `for _ in range(0, loops)` body, instrumented with the attempt
index `i`, the remaining iterations, and counters: the result is
`(returned value, number of fetches performed, number of sleeps performed)`.
Each iteration fetches once; an iteration that does not return sleeps once
before the next one. -/
def provisionLoop (fetch : Nat → Option String) (provision_state : String) :
    Nat → Nat → Bool × Nat × Nat
  | _, 0 => (false, 0, 0)
  | i, rem + 1 =>
    match fetch i with
    | none => (true, 1, 0)
    | some s =>
      if s == provision_state then (true, 1, 0)
      else
        let r := provisionLoop fetch provision_state (i + 1) rem
        (r.1, r.2.1 + 1, r.2.2 + 1)

/-- `wait_for_provision_state` with its attempt/sleep counters; the Python
function returns only the boolean (`.1`). Default `loops=10`. -/
def wait_for_provision_state (fetch : Nat → Option String)
    (provision_state : String) (loops : Nat := 10) : Bool × Nat × Nat :=
  provisionLoop fetch provision_state 0 loops

/-- Whether attempt `i` converges: the node has vanished (`none`) or its
provisioning state equals the target. -/
def provisionConverged (fetch : Nat → Option String) (provision_state : String)
    (i : Nat) : Bool :=
  match fetch i with
  | none => true
  | some s => s == provision_state

theorem provisionLoop_exhausted (fetch : Nat → Option String)
    (provision_state : String) :
    ∀ (rem i : Nat),
      (∀ j, i ≤ j → j < i + rem →
        provisionConverged fetch provision_state j = false) →
      provisionLoop fetch provision_state i rem = (false, rem, rem) := by
  intro rem
  induction rem with
  | zero => intro i _; rfl
  | succ n ih =>
    intro i hall
    have hi : provisionConverged fetch provision_state i = false :=
      hall i (Nat.le_refl i) (by omega)
    cases hfetch : fetch i with
    | none => simp [provisionConverged, hfetch] at hi
    | some s =>
      have hs : (s == provision_state) = false := by
        simpa [provisionConverged, hfetch] using hi
      have hrec := ih (i + 1) (fun j h1 h2 => hall j (by omega) (by omega))
      simp [provisionLoop, hfetch, hs, hrec]

theorem provisionLoop_converges (fetch : Nat → Option String)
    (provision_state : String) :
    ∀ (k rem i : Nat), k < rem →
      (∀ j, i ≤ j → j < i + k →
        provisionConverged fetch provision_state j = false) →
      provisionConverged fetch provision_state (i + k) = true →
      provisionLoop fetch provision_state i rem = (true, k + 1, k) := by
  intro k
  induction k with
  | zero =>
    intro rem i hk _ hconv
    obtain ⟨n, rfl⟩ : ∃ n, rem = n + 1 := ⟨rem - 1, by omega⟩
    cases hfetch : fetch i with
    | none => simp [provisionLoop, hfetch]
    | some s =>
      have hs : (s == provision_state) = true := by
        simpa [provisionConverged, hfetch] using hconv
      simp [provisionLoop, hfetch, hs]
  | succ n ih =>
    intro rem i hk hall hconv
    obtain ⟨r, rfl⟩ : ∃ r, rem = r + 1 := ⟨rem - 1, by omega⟩
    have hi : provisionConverged fetch provision_state i = false :=
      hall i (Nat.le_refl i) (by omega)
    cases hfetch : fetch i with
    | none => simp [provisionConverged, hfetch] at hi
    | some s =>
      have hs : (s == provision_state) = false := by
        simpa [provisionConverged, hfetch] using hi
      have hrec := ih r (i + 1) (by omega)
        (fun j h1 h2 => hall j (by omega) (by omega))
        (by have heq : i + 1 + n = i + (n + 1) := by omega
            rw [heq]; exact hconv)
      simp [provisionLoop, hfetch, hs, hrec]

/-- C4 -- `wait_for_provision_state` over a scripted fetch sequence:
(1) if the first converging attempt (node vanished, or provisioning state
equal to the target) is attempt `k` (0-based) with `k < loops`, the poller
returns success after exactly `k + 1` fetch attempts and `k` sleeps;
(2) if no attempt within the budget converges, it returns failure (a
returned value, nothing is raised) after exactly `loops` attempts, each
iteration sleeping once for the configured interval. -/
theorem wait_for_provision_state_spec (fetch : Nat → Option String)
    (provision_state : String) (loops : Nat) :
    (∀ k, k < loops →
      (∀ j, j < k → provisionConverged fetch provision_state j = false) →
      provisionConverged fetch provision_state k = true →
      wait_for_provision_state fetch provision_state loops = (true, k + 1, k)) ∧
    ((∀ j, j < loops → provisionConverged fetch provision_state j = false) →
      wait_for_provision_state fetch provision_state loops = (false, loops, loops)) := by
  constructor
  · intro k hk hall hconv
    exact provisionLoop_converges fetch provision_state k loops 0 hk
      (fun j h1 h2 => hall j (by omega)) (by simpa using hconv)
  · intro hall
    exact provisionLoop_exhausted fetch provision_state loops 0
      (fun j h1 h2 => hall j (by omega))

/-- Witness for C4: a node that reaches `available` on the third attempt
(index 2) makes the default 10-attempt poller return success after 3
attempts and 2 sleeps. -/
theorem wait_for_provision_state_spec_witness :
    wait_for_provision_state
      (fun i => if i < 2 then some "deploying" else some "available")
      "available" 10 = (true, 3, 2) :=
  (wait_for_provision_state_spec
      (fun i => if i < 2 then some "deploying" else some "available")
      "available" 10).1 2 (by omega)
    (by intro j hj
        interval_cases j <;> decide)
    (by decide)

/-! ## Introspection poller (`wait_for_node_introspection`)

`inspector_client.get_status` returns a mapping with a `finished` flag and
an `error` value; the script `fetch r u` gives the status returned for node
`u` during round `r`. -/

structure IntroStatus where
  finished : Bool
  error : Option String
  deriving DecidableEq, Repr

/-- One polling round.  Python's `for node_uuid in node_uuids:` iterates by
index over the very list that `node_uuids.remove(node_uuid)` mutates in
place: the loop reads `node_uuids[i]`, runs the body (possibly shrinking
the list), then moves on to index `i + 1` of the *mutated* list, stopping
as soon as the index falls outside the list.  Since the index grows by one
per step and the list never grows, the loop performs at most
`node_uuids.length` steps, so running this bounded recursion with
`fuel = node_uuids.length` is exact.  Yielded pairs are accumulated in
`acc` in yield order. -/
def introRoundGo (fetch : String → IntroStatus) :
    Nat → Nat → List String → List (String × IntroStatus) →
    List String × List (String × IntroStatus)
  | 0, _, uuids, acc => (uuids, acc)
  | fuel + 1, i, uuids, acc =>
    if h : i < uuids.length then
      let u := uuids[i]
      let st := fetch u
      if st.finished then
        introRoundGo fetch fuel (i + 1) (uuids.erase u) (acc ++ [(u, st)])
      else
        introRoundGo fetch fuel (i + 1) uuids acc
    else (uuids, acc)

/-- One round of the introspection poll over the current outstanding list. -/
def introRound (fetch : String → IntroStatus) (uuids : List String) :
    List String × List (String × IntroStatus) :=
  introRoundGo fetch uuids.length 0 uuids []

/-- The `for _ in range(0, loops)` driver: run a round, append its yields,
stop early when the outstanding list empties (the generator's
`raise StopIteration`, which under the contemporaneous generator semantics
simply ends the sequence), otherwise sleep and continue; when the budget is
exhausted the remaining outstanding ids are only logged, and the sequence
ends normally. Returns (outstanding ids left, the yielded sequence). -/
def introLoop (fetch : Nat → String → IntroStatus) :
    Nat → Nat → List String → List (String × IntroStatus) →
    List String × List (String × IntroStatus)
  | _, 0, uuids, acc => (uuids, acc)
  | r, rem + 1, uuids, acc =>
    let step := introRound (fetch r) uuids
    let acc' := acc ++ step.2
    if step.1.isEmpty then (step.1, acc')
    else introLoop fetch (r + 1) rem step.1 acc'

/-- `wait_for_node_introspection` over a scripted status sequence; rounds
are numbered from 0; default `loops=220`. -/
def wait_for_node_introspection (fetch : Nat → String → IntroStatus)
    (node_uuids : List String) (loops : Nat := 220) :
    List String × List (String × IntroStatus) :=
  introLoop fetch 0 loops node_uuids []

/-- Status script of the specified scenario: node `A` reports finished from
round 1 on (round index 0), node `B` from round 2 on (round index 1), node
`C` never. -/
def introScenarioABC : Nat → String → IntroStatus := fun r u =>
  if u == "A" then ⟨true, none⟩
  else if u == "B" then ⟨decide (1 ≤ r), none⟩
  else ⟨false, none⟩

/-- Status script in which every node always reports finished. -/
def introScenarioAll : Nat → String → IntroStatus := fun _ _ => ⟨true, none⟩

set_option maxRecDepth 100000 in
/-- C2 -- Introspection poller, scripted scenario: with nodes `A`, `B`, `C`
where `A`'s status reports finished on round 1, `B`'s on round 2 and `C`'s
never, the produced sequence is exactly `(A, status)` then `(B, status)`
and the poll ends normally with the attempt budget exhausted and `C` still
outstanding; and with only `A` and `B` the outstanding set empties and the
poll likewise ends normally after yielding `A` then `B`. -/
theorem wait_for_node_introspection_scenario :
    wait_for_node_introspection introScenarioABC ["A", "B", "C"] 220 =
      (["C"], [("A", ⟨true, none⟩), ("B", ⟨true, none⟩)]) ∧
    wait_for_node_introspection introScenarioABC ["A", "B"] 220 =
      ([], [("A", ⟨true, none⟩), ("B", ⟨true, none⟩)]) := by
  constructor <;> rfl

/-- Counterexample to C3: in a round where both outstanding nodes `A` and
`B` report finished, only `A` is yielded during that round -- the in-place
removal of `A` shifts `B` under the loop index, so `B` is skipped and is
still outstanding when the round (and here the whole 1-round budget)
ends. -/
theorem introspection_same_round_counterexample :
    (introScenarioAll 0 "B").finished = true ∧
    wait_for_node_introspection introScenarioAll ["A", "B"] 1 =
      (["B"], [("A", ⟨true, none⟩)]) := by
  constructor <;> rfl

theorem introRoundGo_acc_prefix (fetch : String → IntroStatus) :
    ∀ (fuel i : Nat) (uuids : List String) (acc : List (String × IntroStatus)),
      ∃ l, (introRoundGo fetch fuel i uuids acc).2 = acc ++ l := by
  intro fuel
  induction fuel with
  | zero => intro i uuids acc; exact ⟨[], by simp [introRoundGo]⟩
  | succ n ih =>
    intro i uuids acc
    simp only [introRoundGo]
    by_cases h : i < uuids.length
    · simp only [h, dif_pos]
      by_cases hfin : (fetch uuids[i]).finished
      · simp only [hfin, if_pos]
        obtain ⟨l, hl⟩ := ih (i + 1) (uuids.erase uuids[i])
          (acc ++ [(uuids[i], fetch uuids[i])])
        refine ⟨(uuids[i], fetch uuids[i]) :: l, ?_⟩
        rw [hl, List.append_assoc]
        rfl
      · simp only [hfin]
        simpa using ih (i + 1) uuids acc
    · exact ⟨[], by simp [h]⟩

theorem introRoundGo_outstanding_subset (fetch : String → IntroStatus) :
    ∀ (fuel i : Nat) (uuids : List String) (acc : List (String × IntroStatus)),
      (introRoundGo fetch fuel i uuids acc).1 ⊆ uuids := by
  intro fuel
  induction fuel with
  | zero => intro i uuids acc; simp [introRoundGo]
  | succ n ih =>
    intro i uuids acc
    simp only [introRoundGo]
    by_cases h : i < uuids.length
    · simp only [h, dif_pos]
      by_cases hfin : (fetch uuids[i]).finished
      · simp only [hfin, if_pos]
        intro x hx
        exact List.erase_subset _ _ (ih (i + 1) _ _ hx)
      · simp only [hfin]
        exact ih (i + 1) uuids acc
    · simp [h]

/-- C3 amended -- Each polling round iterates the outstanding list by index
while removing finished nodes from it in place, so the node immediately
following a removed node is skipped for that round and handled in a later
round: (1) generally, every node that is actually queried (i.e. sits at
the loop's current index) and reports finished is yielded during that round
and removed from the outstanding set; (2) in the two-node, all-finished
scenario the second node is yielded in round 2, not round 1. -/
theorem introspection_queried_finished_yielded :
    (∀ (fetch : String → IntroStatus) (fuel i : Nat) (uuids : List String)
       (acc : List (String × IntroStatus)) (h : i < uuids.length),
       uuids.Nodup →
       (fetch uuids[i]).finished = true →
       (uuids[i], fetch uuids[i]) ∈
           (introRoundGo fetch (fuel + 1) i uuids acc).2 ∧
         uuids[i] ∉ (introRoundGo fetch (fuel + 1) i uuids acc).1) ∧
    wait_for_node_introspection introScenarioAll ["A", "B"] 2 =
      ([], [("A", ⟨true, none⟩), ("B", ⟨true, none⟩)]) := by
  constructor
  · intro fetch fuel i uuids acc h hnodup hfin
    simp only [introRoundGo, h, dif_pos, hfin, if_pos]
    constructor
    · obtain ⟨l, hl⟩ := introRoundGo_acc_prefix fetch fuel (i + 1)
        (uuids.erase uuids[i])
        (acc ++ [(uuids[i], fetch uuids[i])])
      rw [hl]
      simp
    · intro hmem
      have hsub := introRoundGo_outstanding_subset fetch fuel (i + 1)
        (uuids.erase uuids[i])
        (acc ++ [(uuids[i], fetch uuids[i])]) hmem
      exact (List.Nodup.not_mem_erase hnodup) hsub
  · rfl

/-- Witness for the amended C3: with outstanding list `["A", "B"]` and the
loop index at `B`, the finished node `B` is yielded in that round and
leaves the outstanding set. -/
theorem introspection_queried_finished_yielded_witness :
    ("B", introScenarioAll 0 "B") ∈
        (introRoundGo (introScenarioAll 0) 2 1 ["A", "B"] []).2 ∧
      "B" ∉ (introRoundGo (introScenarioAll 0) 2 1 ["A", "B"] []).1 := by
  have h := introspection_queried_finished_yielded.1 (introScenarioAll 0) 1 1
    ["A", "B"] [] (by decide) (by decide) rfl
  exact h

/-! ## Admission checker (`check_nodes_count`)

A bare-metal node as the checker sees it: an association flag and a
maintenance flag.  The client's filtered `node.list` calls are modelled as
filters over the full inventory. -/

structure IronicNode where
  associated : Bool
  maintenance : Bool
  deriving DecidableEq, Repr

/-- The two errors `check_nodes_count` can raise: `ValueError` for a
default-bearing parameter missing from an existing stack's parameters (the
spec's `ConfigurationError`), and `DeploymentError` carrying
(available, requested) when the inventory is too small (the spec's
`InsufficientResourcesError`). -/
inductive CheckError where
  | paramNotFound (param : String)
  | notEnoughNodes (available requested : Int)
  deriving DecidableEq, Repr

/-- `dict.get` on a parameter mapping modelled as an association list. -/
def lookupParam (m : List (String × Int)) (k : String) : Option Int :=
  (m.find? (fun p => p.1 == k)).map (fun p => p.2)

/-- The requested-count computation of `check_nodes_count`: with a stack,
each default-bearing parameter must be present in `stack.parameters`
(`KeyError` is re-raised as `ValueError`) and contributes
`parameters.get(param, current)` (the override takes precedence, the
stack's recorded value is the fallback); without a stack it contributes
`parameters.get(param, default)`. -/
def computeCount (stack : Option (List (String × Int)))
    (parameters defaults : List (String × Int)) : Except CheckError Int :=
  match stack with
  | some sp =>
    defaults.foldlM
      (fun acc pd =>
        match lookupParam sp pd.1 with
        | none => .error (.paramNotFound pd.1)
        | some current => .ok (acc + (lookupParam parameters pd.1).getD current))
      0
  | none =>
    .ok (defaults.foldl
      (fun acc pd => acc + (lookupParam parameters pd.1).getD pd.2) 0)

/-- Number of nodes returned by `node.list(associated=True)`. -/
def associatedCount (nodes : List IronicNode) : Int :=
  (nodes.filter (fun n => n.associated)).length

/-- Number of nodes returned by `node.list(associated=False, maintenance=False)`. -/
def availableCount (nodes : List IronicNode) : Int :=
  (nodes.filter (fun n => !n.associated && !n.maintenance)).length

instance {e a : Type} [DecidableEq e] [DecidableEq a] : DecidableEq (Except e a) :=
  fun x y =>
    match x, y with
    | .error u, .error v =>
      if h : u = v then .isTrue (by rw [h])
      else .isFalse (fun hc => h (by injection hc))
    | .ok u, .ok v =>
      if h : u = v then .isTrue (by rw [h])
      else .isFalse (fun hc => h (by injection hc))
    | .error _, .ok _ => .isFalse (fun hc => Except.noConfusion hc)
    | .ok _, .error _ => .isFalse (fun hc => Except.noConfusion hc)

/-- `check_nodes_count`: compute the requested count (an uncaught
configuration error propagates), compute the usable inventory
`associated + available`, and fail with (available, requested) when the
request exceeds it; otherwise return `True`. -/
def check_nodes_count (nodes : List IronicNode)
    (stack : Option (List (String × Int)))
    (parameters defaults : List (String × Int)) : Except CheckError Bool :=
  match computeCount stack parameters defaults with
  | .error e => .error e
  | .ok count =>
    let ironic_nodes_count := associatedCount nodes + availableCount nodes
    if count > ironic_nodes_count then
      .error (.notEnoughNodes ironic_nodes_count count)
    else
      .ok true

/-- The concrete inventory of the specified scenario: 2 associated nodes
and 3 unassociated, non-maintenance nodes. -/
def scenarioNodes : List IronicNode :=
  [⟨true, false⟩, ⟨true, false⟩, ⟨false, false⟩, ⟨false, false⟩, ⟨false, false⟩]

/-- C6 -- `check_nodes_count` compares the total requested count against
the inventory `associated + (unassociated ∧ ¬maintenance)` and fails with
`(available, requested)` exactly when the request exceeds it: (1) whenever
the requested count computes to `c`, the checker fails with
`(associated + available, c)` iff `c` exceeds that sum, and returns success
otherwise; (2) with 2 associated and 3 free nodes, requesting 6 via
overrides fails with available 5, requested 6; (3) requesting 5 succeeds. -/
theorem check_nodes_count_gate
    (nodes : List IronicNode) (stack : Option (List (String × Int)))
    (parameters defaults : List (String × Int)) (c : Int)
    (hcount : computeCount stack parameters defaults = .ok c) :
    (check_nodes_count nodes stack parameters defaults =
        .error (.notEnoughNodes (associatedCount nodes + availableCount nodes) c) ↔
      c > associatedCount nodes + availableCount nodes) ∧
    (¬ c > associatedCount nodes + availableCount nodes →
      check_nodes_count nodes stack parameters defaults = .ok true) ∧
    check_nodes_count scenarioNodes none [("ComputeCount", 6)] [("ComputeCount", 1)] =
      .error (.notEnoughNodes 5 6) ∧
    check_nodes_count scenarioNodes none [("ComputeCount", 5)] [("ComputeCount", 1)] =
      .ok true := by
  refine ⟨?_, ?_, by decide, by decide⟩
  · constructor
    · intro h
      by_contra hgt
      simp only [check_nodes_count, hcount] at h
      rw [if_neg hgt] at h
      exact Except.noConfusion h
    · intro hgt
      simp only [check_nodes_count, hcount]
      rw [if_pos hgt]
  · intro hle
    simp only [check_nodes_count, hcount]
    rw [if_neg hle]

/-- Witness for C6: requesting 6 from the 5-node scenario inventory with no
stack fails with available 5, requested 6. -/
theorem check_nodes_count_gate_witness :
    check_nodes_count scenarioNodes none [("ComputeCount", 6)] [("ComputeCount", 1)] =
      .error (.notEnoughNodes 5 6) :=
  ((check_nodes_count_gate scenarioNodes none [("ComputeCount", 6)]
      [("ComputeCount", 1)] 6 (by decide)).1).2 (by decide)

/-- Counterexample to C7: with an existing stack recording `ComputeCount = 1`,
an override requesting 7 and a 5-node inventory, the checker fails with
requested 7 -- the override takes precedence over the stack's recorded
value, whereas the claim predicts the recorded value 1 would be used and
the check would succeed. -/
theorem check_nodes_count_stack_counterexample :
    check_nodes_count scenarioNodes (some [("ComputeCount", 1)])
        [("ComputeCount", 7)] [("ComputeCount", 1)] =
      .error (.notEnoughNodes 5 7) ∧
    check_nodes_count scenarioNodes (some [("ComputeCount", 1)])
        [("ComputeCount", 7)] [("ComputeCount", 1)] ≠ .ok true := by
  constructor
  · decide
  · decide

theorem computeCount_foldlM_error (sp parameters : List (String × Int))
    (p : String × Int) (rest : List (String × Int))
    (hp : lookupParam sp p.1 = none) :
    ∀ (front : List (String × Int)) (acc : Int),
      (∀ q ∈ front, lookupParam sp q.1 ≠ none) →
      (front ++ p :: rest).foldlM
          (fun acc pd =>
            match lookupParam sp pd.1 with
            | none => Except.error (CheckError.paramNotFound pd.1)
            | some current =>
              Except.ok (acc + (lookupParam parameters pd.1).getD current))
          acc = .error (.paramNotFound p.1) := by
  intro front
  induction front with
  | nil =>
    intro acc _
    simp only [List.nil_append, List.foldlM_cons, hp]
    rfl
  | cons q front' ih =>
    intro acc hfront
    have hq := hfront q (List.mem_cons_self q front')
    cases hlq : lookupParam sp q.1 with
    | none => exact absurd hlq hq
    | some v =>
      simp only [List.cons_append, List.foldlM_cons, hlq]
      exact ih _ (fun r hr => hfront r (List.mem_cons_of_mem q hr))

theorem computeCount_foldlM_ok (sp parameters : List (String × Int)) :
    ∀ (l : List (String × Int)) (acc : Int),
      (∀ q ∈ l, lookupParam sp q.1 ≠ none) →
      l.foldlM
          (fun acc pd =>
            match lookupParam sp pd.1 with
            | none => Except.error (CheckError.paramNotFound pd.1)
            | some current =>
              Except.ok (acc + (lookupParam parameters pd.1).getD current))
          acc =
        .ok (l.foldl
          (fun acc pd =>
            acc + (lookupParam parameters pd.1).getD ((lookupParam sp pd.1).getD 0))
          acc) := by
  intro l
  induction l with
  | nil => intro acc _; rfl
  | cons q l' ih =>
    intro acc hall
    have hq := hall q (List.mem_cons_self q l')
    cases hlq : lookupParam sp q.1 with
    | none => exact absurd hlq hq
    | some v =>
      simp only [List.foldlM_cons, List.foldl_cons, hlq, Option.getD_some]
      exact ih _ (fun r hr => hall r (List.mem_cons_of_mem q hr))

/-- C7 amended -- When a stack exists, each default-bearing parameter's
requested count is the override value when present, with the stack's
already-recorded value only as fallback; the checker still fails with the
configuration error if a parameter the defaults expect is absent from the
existing stack's parameters (even when an override supplies it); only when
no stack exists is the count taken from overrides falling back to the
static defaults. -/
theorem check_nodes_count_requested_counts
    (sp parameters defaults : List (String × Int)) :
    (∀ (front : List (String × Int)) (p : String × Int)
       (rest : List (String × Int)),
       defaults = front ++ p :: rest →
       (∀ q ∈ front, lookupParam sp q.1 ≠ none) →
       lookupParam sp p.1 = none →
       computeCount (some sp) parameters defaults = .error (.paramNotFound p.1)) ∧
    ((∀ q ∈ defaults, lookupParam sp q.1 ≠ none) →
       computeCount (some sp) parameters defaults =
         .ok (defaults.foldl
           (fun acc pd =>
             acc + (lookupParam parameters pd.1).getD ((lookupParam sp pd.1).getD 0))
           0)) ∧
    computeCount none parameters defaults =
      .ok (defaults.foldl
        (fun acc pd => acc + (lookupParam parameters pd.1).getD pd.2) 0) := by
  refine ⟨?_, ?_, rfl⟩
  · intro front p rest hsplit hfront hp
    subst hsplit
    exact computeCount_foldlM_error sp parameters p rest hp front 0 hfront
  · intro hall
    exact computeCount_foldlM_ok sp parameters defaults 0 hall

/-- Witness for the amended C7: with a stack recording `ComputeCount = 2`
and an override of 4, the computed requested count is the override 4; with
the `ControllerCount` entry absent from the stack's parameters, the
configuration error names it even though an override supplies it. -/
theorem check_nodes_count_requested_counts_witness :
    computeCount (some [("ComputeCount", 2)]) [("ComputeCount", 4)]
        [("ComputeCount", 1)] = .ok 4 ∧
    computeCount (some [("ComputeCount", 2)]) [("ControllerCount", 3)]
        [("ControllerCount", 1)] = .error (.paramNotFound "ControllerCount") := by
  constructor
  · have h := (check_nodes_count_requested_counts [("ComputeCount", 2)]
      [("ComputeCount", 4)] [("ComputeCount", 1)]).2.1 (by decide)
    rw [h]
    decide
  · exact (check_nodes_count_requested_counts [("ComputeCount", 2)]
      [("ControllerCount", 3)] [("ControllerCount", 1)]).1 []
      ("ControllerCount", 1) [] rfl (by decide) (by decide)

/-! ## Credential store (`generate_overcloud_passwords`)

The persisted file is modelled as a list of characters, a Python `dict` as
an association list in insertion order, and the random generator as an
oracle `gen : name → value`. -/

/-- `_PASSWORD_NAMES`, the canonical credential names. -/
def PASSWORD_NAMES : List (List Char) :=
  ["OVERCLOUD_ADMIN_PASSWORD".toList,
   "OVERCLOUD_ADMIN_TOKEN".toList,
   "OVERCLOUD_CEILOMETER_PASSWORD".toList,
   "OVERCLOUD_CEILOMETER_SECRET".toList,
   "OVERCLOUD_CINDER_PASSWORD".toList,
   "OVERCLOUD_DEMO_PASSWORD".toList,
   "OVERCLOUD_GLANCE_PASSWORD".toList,
   "OVERCLOUD_HEAT_PASSWORD".toList,
   "OVERCLOUD_HEAT_STACK_DOMAIN_PASSWORD".toList,
   "OVERCLOUD_NEUTRON_PASSWORD".toList,
   "OVERCLOUD_NOVA_PASSWORD".toList,
   "OVERCLOUD_SWIFT_HASH".toList,
   "OVERCLOUD_SWIFT_PASSWORD".toList]

/-- `dict.get`: value of the first (only) entry with the given key. -/
def dictGet : List (List Char × List Char) → List Char → Option (List Char)
  | [], _ => none
  | p :: rest, k => if p.1 == k then some p.2 else dictGet rest k

/-- `dict[k] = v`: replace the value in place when the key exists (Python
dicts keep the original insertion position on overwrite), append a new
entry otherwise. -/
def dictInsert : List (List Char × List Char) → List Char → List Char →
    List (List Char × List Char)
  | [], k, v => [(k, v)]
  | p :: rest, k, v =>
    if p.1 == k then (k, v) :: rest else p :: dictInsert rest k v

/-- `str.splitlines()` for `'\n'`-separated text (the only line break this
file format ever contains): lines are the maximal `'\n'`-free runs, and a
trailing `'\n'` does not produce a final empty line. -/
def splitlines : List Char → List (List Char)
  | [] => []
  | c :: rest =>
    if c = '\n' then [] :: splitlines rest
    else
      match splitlines rest with
      | [] => [[c]]
      | l :: ls => (c :: l) :: ls

/-- `str.split(ch)`: split on every occurrence of `ch`. -/
def splitOn (ch : Char) : List Char → List (List Char)
  | [] => [[]]
  | c :: rest =>
    if c = ch then [] :: splitOn ch rest
    else
      match splitOn ch rest with
      | [] => [[c]]
      | l :: ls => (c :: l) :: ls

/-- `dict(line.split('=') for line in f.read().splitlines())`: every line
must split on `'='` into exactly two parts, otherwise `dict()` raises
(modelled as the error case). -/
def parsePasswords (content : List Char) :
    Except Unit (List (List Char × List Char)) :=
  (splitlines content).foldlM
    (fun pw line =>
      match splitOn '=' line with
      | [k, v] => .ok (dictInsert pw k v)
      | _ => .error ())
    []

/-- The write loop: one `"{0}={1}\n".format(name, password)` line per entry
in insertion order. -/
def serializePasswords (pw : List (List Char × List Char)) : List Char :=
  (pw.map (fun p => p.1 ++ '=' :: p.2 ++ ['\n'])).flatten

/-- One step of the `for name in _PASSWORD_NAMES` loop: regenerate exactly
when `not passwords.get(name)` — the name is missing or its value is the
empty string. -/
def credStep (gen : List Char → List Char)
    (pw : List (List Char × List Char)) (name : List Char) :
    List (List Char × List Char) :=
  if ((dictGet pw name).getD []).isEmpty then dictInsert pw name (gen name)
  else pw

/-- `generate_overcloud_passwords`: parse the existing file when present,
fill every missing or empty canonical name from the generator, return the
resulting mapping (which the code then writes back). -/
def generate_overcloud_passwords (fileContent : Option (List Char))
    (gen : List Char → List Char) :
    Except Unit (List (List Char × List Char)) :=
  match
    (match fileContent with
     | some c => parsePasswords c
     | none => Except.ok [])
  with
  | .error e => .error e
  | .ok passwords => .ok (PASSWORD_NAMES.foldl (credStep gen) passwords)

theorem dictGet_dictInsert_ne (k v k' : List Char) (hne : k' ≠ k) :
    ∀ (m : List (List Char × List Char)),
      dictGet (dictInsert m k v) k' = dictGet m k' := by
  have hkk : (k == k') = false := by
    simp only [beq_eq_false_iff_ne]
    exact fun hc => hne hc.symm
  intro m
  induction m with
  | nil => simp [dictInsert, dictGet, hkk]
  | cons p rest ih =>
    simp only [dictInsert]
    by_cases hp : p.1 == k
    · have hpk : (p.1 == k') = false := by
        simp only [beq_eq_false_iff_ne]
        intro hc
        exact hne (((eq_of_beq hp).symm.trans hc)).symm
      simp [hp, dictGet, hkk, hpk]
    · simp only [hp, Bool.false_eq_true, if_neg]
      by_cases hp' : p.1 == k'
      · simp [dictGet, hp']
      · simp [dictGet, hp', ih]

theorem credStep_get_ne (gen : List Char → List Char)
    (pw : List (List Char × List Char)) (name k : List Char) (hne : k ≠ name) :
    dictGet (credStep gen pw name) k = dictGet pw k := by
  simp only [credStep]
  by_cases hc : ((dictGet pw name).getD []).isEmpty
  · simp only [hc, if_pos]
    exact dictGet_dictInsert_ne name (gen name) k hne pw
  · simp [hc]

theorem credFold_get_preserved (gen : List Char → List Char) :
    ∀ (l : List (List Char)) (pw : List (List Char × List Char))
      (k v : List Char), dictGet pw k = some v → v ≠ [] →
      dictGet (l.foldl (credStep gen) pw) k = some v := by
  intro l
  induction l with
  | nil => intro pw k v hget _; exact hget
  | cons n rest ih =>
    intro pw k v hget hne
    have hstep : dictGet (credStep gen pw n) k = some v := by
      by_cases hk : k = n
      · subst hk
        obtain ⟨a, t, rfl⟩ := List.exists_cons_of_ne_nil hne
        have hcond : ((dictGet pw k).getD []).isEmpty = false := by
          rw [hget]
          rfl
        have hpw : credStep gen pw k = pw := by
          simp [credStep, hcond]
        rw [hpw]
        exact hget
      · rw [credStep_get_ne gen pw n k hk]
        exact hget
    exact ih (credStep gen pw n) k v hstep hne

theorem credFold_noop (gen : List Char → List Char) :
    ∀ (l : List (List Char)) (pw : List (List Char × List Char)),
      (∀ n ∈ l, ((dictGet pw n).getD []).isEmpty = false) →
      l.foldl (credStep gen) pw = pw := by
  intro l
  induction l with
  | nil => intro pw _; rfl
  | cons n rest ih =>
    intro pw hall
    have hn := hall n (List.mem_cons_self n rest)
    have hstep : credStep gen pw n = pw := by
      simp [credStep, hn]
    rw [List.foldl_cons, hstep]
    exact ih pw (fun m hm => hall m (List.mem_cons_of_mem n hm))

theorem dictGet_dictInsert_self (k v : List Char) :
    ∀ (m : List (List Char × List Char)),
      dictGet (dictInsert m k v) k = some v := by
  intro m
  induction m with
  | nil => simp [dictInsert, dictGet]
  | cons p rest ih =>
    simp only [dictInsert]
    by_cases hp : p.1 == k
    · simp [hp, dictGet]
    · simp [hp, dictGet, ih]

theorem credFold_fills (gen : List Char → List Char) :
    ∀ (l : List (List Char)) (pw : List (List Char × List Char))
      (name : List Char), l.Nodup → name ∈ l →
      ((dictGet pw name).getD []).isEmpty = true →
      gen name ≠ [] →
      dictGet (l.foldl (credStep gen) pw) name = some (gen name) := by
  intro l
  induction l with
  | nil => intro pw name _ hmem; exact absurd hmem (List.not_mem_nil name)
  | cons n rest ih =>
    intro pw name hnodup hmem hempty hgen
    rcases List.mem_cons.mp hmem with heq | hmem'
    · subst heq
      have hstep : credStep gen pw name = dictInsert pw name (gen name) := by
        simp [credStep, hempty]
      rw [List.foldl_cons, hstep]
      have hnotin : name ∉ rest := (List.nodup_cons.mp hnodup).1
      have hget : dictGet (dictInsert pw name (gen name)) name = some (gen name) :=
        dictGet_dictInsert_self name (gen name) pw
      exact credFold_get_preserved gen rest (dictInsert pw name (gen name))
        name (gen name) hget hgen
    · have hne : name ≠ n := by
        intro hc
        subst hc
        exact (List.nodup_cons.mp hnodup).1 hmem'
      rw [List.foldl_cons]
      have hempty' : ((dictGet (credStep gen pw n) name).getD []).isEmpty = true := by
        rw [credStep_get_ne gen pw n name hne]
        exact hempty
      exact ih (credStep gen pw n) name (List.nodup_cons.mp hnodup).2 hmem' hempty' hgen

/-- C8 -- `generate_overcloud_passwords` over an existing parseable file:
(1) when every canonical name is present with a non-empty value, the
returned mapping is the parsed file unchanged, so every value is
byte-identical (idempotence); (2) every already-non-empty value of the
file is preserved unchanged, whatever else happens; (3) every canonical
name that is missing or empty is filled with the freshly generated value
(generated values are non-empty in reality; the oracle is assumed
non-empty for the name). -/
theorem generate_overcloud_passwords_idempotent
    (c : List Char) (pw : List (List Char × List Char))
    (gen : List Char → List Char)
    (hparse : parsePasswords c = .ok pw) :
    ((∀ n ∈ PASSWORD_NAMES, ((dictGet pw n).getD []).isEmpty = false) →
       generate_overcloud_passwords (some c) gen = .ok pw) ∧
    (∀ k v, dictGet pw k = some v → v ≠ [] →
       ∃ pw', generate_overcloud_passwords (some c) gen = .ok pw' ∧
         dictGet pw' k = some v) ∧
    (∀ n, n ∈ PASSWORD_NAMES →
       ((dictGet pw n).getD []).isEmpty = true → gen n ≠ [] →
       ∃ pw', generate_overcloud_passwords (some c) gen = .ok pw' ∧
         dictGet pw' n = some (gen n)) := by
  have hgen : generate_overcloud_passwords (some c) gen =
      .ok (PASSWORD_NAMES.foldl (credStep gen) pw) := by
    simp [generate_overcloud_passwords, hparse]
  refine ⟨?_, ?_, ?_⟩
  · intro hall
    rw [hgen, credFold_noop gen PASSWORD_NAMES pw hall]
  · intro k v hget hne
    exact ⟨PASSWORD_NAMES.foldl (credStep gen) pw, hgen,
      credFold_get_preserved gen PASSWORD_NAMES pw k v hget hne⟩
  · intro n hmem hempty hgenne
    refine ⟨PASSWORD_NAMES.foldl (credStep gen) pw, hgen, ?_⟩
    exact credFold_fills gen PASSWORD_NAMES pw n (by decide) hmem hempty hgenne

/-- Witness for C8: a file holding every canonical name with value `"x"`
parses to that mapping and regeneration returns it unchanged. -/
theorem generate_overcloud_passwords_idempotent_witness :
    generate_overcloud_passwords
        (some (serializePasswords (PASSWORD_NAMES.map (fun n => (n, ['x'])))))
        (fun _ => ['y']) =
      .ok (PASSWORD_NAMES.map (fun n => (n, ['x']))) :=
  (generate_overcloud_passwords_idempotent
      (serializePasswords (PASSWORD_NAMES.map (fun n => (n, ['x']))))
      (PASSWORD_NAMES.map (fun n => (n, ['x'])))
      (fun _ => ['y']) (by decide)).1 (by decide)

theorem splitlines_append (b : List Char) :
    ∀ (a : List Char), '\n' ∉ a →
      splitlines (a ++ '\n' :: b) = a :: splitlines b := by
  intro a
  induction a with
  | nil =>
    intro _
    simp [splitlines]
  | cons c a' ih =>
    intro ha
    have hc : c ≠ '\n' := fun hc => ha (hc ▸ List.mem_cons_self c a')
    have ha' : '\n' ∉ a' := fun h => ha (List.mem_cons_of_mem c h)
    rw [List.cons_append]
    simp only [splitlines, hc, if_false, if_neg]
    rw [ih ha']

theorem splitOn_no_sep (ch : Char) :
    ∀ (l : List Char), ch ∉ l → splitOn ch l = [l] := by
  intro l
  induction l with
  | nil => intro _; rfl
  | cons c rest ih =>
    intro h
    have hc : c ≠ ch := fun hc => h (hc ▸ List.mem_cons_self c rest)
    have hrest : ch ∉ rest := fun hm => h (List.mem_cons_of_mem c hm)
    simp [splitOn, hc, ih hrest]

theorem splitOn_mid (ch : Char) (v : List Char) :
    ∀ (k : List Char), ch ∉ k →
      splitOn ch (k ++ ch :: v) = k :: splitOn ch v := by
  intro k
  induction k with
  | nil => intro _; simp [splitOn]
  | cons c k' ih =>
    intro hk
    have hc : c ≠ ch := fun hc => hk (hc ▸ List.mem_cons_self c k')
    have hk' : ch ∉ k' := fun h => hk (List.mem_cons_of_mem c h)
    rw [List.cons_append]
    simp only [splitOn, hc, if_false, if_neg]
    rw [ih hk']

theorem splitOn_pair (k v : List Char) (hk : '=' ∉ k) (hv : '=' ∉ v) :
    splitOn '=' (k ++ '=' :: v) = [k, v] := by
  rw [splitOn_mid '=' v k hk, splitOn_no_sep '=' v hv]

theorem splitOn_length (ch : Char) :
    ∀ (l : List Char), (splitOn ch l).length = l.count ch + 1 := by
  intro l
  induction l with
  | nil => rfl
  | cons c rest ih =>
    by_cases hc : c = ch
    · subst hc
      simp [splitOn, ih, List.count_cons]
    · cases hrec : splitOn ch rest with
      | nil => rw [hrec] at ih; simp at ih
      | cons l' ls =>
        rw [hrec] at ih
        simp only [splitOn, hc, if_neg, hrec]
        simp only [List.length_cons] at ih ⊢
        rw [List.count_cons]
        simp [hc, ih]

theorem serializePasswords_cons (p : List Char × List Char)
    (rest : List (List Char × List Char)) :
    serializePasswords (p :: rest) =
      (p.1 ++ '=' :: p.2) ++ '\n' :: serializePasswords rest := by
  simp [serializePasswords, List.append_assoc]

theorem splitlines_serialize :
    ∀ (pw : List (List Char × List Char)),
      (∀ p ∈ pw, '\n' ∉ p.1 ∧ '\n' ∉ p.2) →
      splitlines (serializePasswords pw) =
        pw.map (fun p => p.1 ++ '=' :: p.2) := by
  intro pw
  induction pw with
  | nil => intro _; rfl
  | cons p rest ih =>
    intro hall
    have hp := hall p (List.mem_cons_self p rest)
    have hline : '\n' ∉ p.1 ++ '=' :: p.2 := by
      intro hm
      rcases List.mem_append.mp hm with h1 | h2
      · exact hp.1 h1
      · rcases List.mem_cons.mp h2 with heq | h3
        · exact absurd heq (by decide)
        · exact hp.2 h3
    rw [serializePasswords_cons, splitlines_append _ _ hline,
      ih (fun q hq => hall q (List.mem_cons_of_mem p hq))]
    rfl

theorem dictInsert_append (k v : List Char) :
    ∀ (m : List (List Char × List Char)), (∀ q ∈ m, q.1 ≠ k) →
      dictInsert m k v = m ++ [(k, v)] := by
  intro m
  induction m with
  | nil => intro _; rfl
  | cons p rest ih =>
    intro hall
    have hp : (p.1 == k) = false := by
      simp only [beq_eq_false_iff_ne]
      exact hall p (List.mem_cons_self p rest)
    simp only [dictInsert, hp, Bool.false_eq_true, if_false, if_neg, List.cons_append]
    rw [ih (fun q hq => hall q (List.mem_cons_of_mem p hq))]

theorem except_ok_bind {e a b : Type} (x : a) (f : a → Except e b) :
    (Except.ok x >>= f) = f x := rfl

theorem parse_fold_ok :
    ∀ (pw acc : List (List Char × List Char)),
      (∀ p ∈ pw, '=' ∉ p.1 ∧ '=' ∉ p.2) →
      (pw.map Prod.fst).Nodup →
      (∀ p ∈ pw, ∀ q ∈ acc, q.1 ≠ p.1) →
      (pw.map (fun p => p.1 ++ '=' :: p.2)).foldlM
          (fun m line =>
            match splitOn '=' line with
            | [k, v] => Except.ok (dictInsert m k v)
            | _ => Except.error ())
          acc = .ok (acc ++ pw) := by
  intro pw
  induction pw with
  | nil =>
    intro acc _ _ _
    simp only [List.map_nil, List.foldlM_nil, List.append_nil]
    rfl
  | cons p rest ih =>
    intro acc hfree hnodup hdisj
    have hp := hfree p (List.mem_cons_self p rest)
    simp only [List.map_cons, List.foldlM_cons,
      splitOn_pair p.1 p.2 hp.1 hp.2]
    rw [dictInsert_append p.1 p.2 acc
      (fun q hq => hdisj p (List.mem_cons_self p rest) q hq)]
    have hnodup' : (rest.map Prod.fst).Nodup := by
      simp only [List.map_cons, List.nodup_cons] at hnodup
      exact hnodup.2
    have hnotin : p.1 ∉ rest.map Prod.fst := by
      simp only [List.map_cons, List.nodup_cons] at hnodup
      exact hnodup.1
    have hdisj' : ∀ q ∈ rest, ∀ r ∈ acc ++ [(p.1, p.2)], r.1 ≠ q.1 := by
      intro q hq r hr
      rcases List.mem_append.mp hr with h1 | h2
      · exact hdisj q (List.mem_cons_of_mem p hq) r h1
      · have : r = (p.1, p.2) := by simpa using h2
        subst this
        intro hc
        exact hnotin (hc ▸ List.mem_map_of_mem Prod.fst hq)
    have := ih (acc ++ [(p.1, p.2)])
      (fun q hq => hfree q (List.mem_cons_of_mem p hq)) hnodup' hdisj'
    rw [except_ok_bind, this]
    simp

theorem parse_fold_error :
    ∀ (lines : List (List Char)) (acc : List (List Char × List Char)),
      (∃ l ∈ lines, (splitOn '=' l).length ≠ 2) →
      lines.foldlM
          (fun m line =>
            match splitOn '=' line with
            | [k, v] => Except.ok (dictInsert m k v)
            | _ => Except.error ())
          acc = .error () := by
  intro lines
  induction lines with
  | nil =>
    intro acc h
    obtain ⟨l, hl, _⟩ := h
    exact absurd hl (List.not_mem_nil l)
  | cons l0 rest ih =>
    intro acc h
    obtain ⟨l, hl, hbad⟩ := h
    simp only [List.foldlM_cons]
    rcases hs : splitOn '=' l0 with _ | ⟨x, _ | ⟨y, _ | ⟨z, t⟩⟩⟩
    · rfl
    · rfl
    · rcases List.mem_cons.mp hl with heq | hmem
      · subst heq
        rw [hs] at hbad
        simp at hbad
      · exact ih (dictInsert acc x y) ⟨l, hmem, hbad⟩
    · rfl

/-- Counterexample to C10: a stored empty value violates the claimed
precondition "every value is non-empty", yet the write-then-read round
trip still recovers the mapping exactly -- non-emptiness is not necessary
for recovery (`NAME=` reads back as the empty value). -/
theorem cred_roundtrip_counterexample :
    parsePasswords
        (serializePasswords [("OVERCLOUD_ADMIN_PASSWORD".toList, [])]) =
      .ok [("OVERCLOUD_ADMIN_PASSWORD".toList, [])] ∧
    (([] : List Char)).isEmpty = true := by
  constructor
  · rfl
  · rfl

/-- C10 amended -- The credential-file write-then-read round trip recovers
exactly the written name-to-value mapping whenever the names are distinct
and no name or value contains `'='` or a newline (values may be empty);
and whenever some stored value contains `'='` (names `'='`-free, the file
otherwise newline-free), the read raises instead of returning a mapping,
because that line splits into more than two parts. -/
theorem cred_file_roundtrip (pw : List (List Char × List Char)) :
    ((pw.map Prod.fst).Nodup →
       (∀ p ∈ pw, '=' ∉ p.1 ∧ '\n' ∉ p.1 ∧ '=' ∉ p.2 ∧ '\n' ∉ p.2) →
       parsePasswords (serializePasswords pw) = .ok pw) ∧
    (∀ k v, (k, v) ∈ pw → '=' ∈ v →
       (∀ p ∈ pw, '=' ∉ p.1 ∧ '\n' ∉ p.1 ∧ '\n' ∉ p.2) →
       parsePasswords (serializePasswords pw) = .error ()) := by
  constructor
  · intro hnodup hfree
    have hlines := splitlines_serialize pw
      (fun p hp => ⟨(hfree p hp).2.1, (hfree p hp).2.2.2⟩)
    simp only [parsePasswords, hlines]
    have := parse_fold_ok pw []
      (fun p hp => ⟨(hfree p hp).1, (hfree p hp).2.2.1⟩)
      hnodup (by intro p _ q hq; exact absurd hq (List.not_mem_nil q))
    rw [this]
    simp
  · intro k v hmem heq hfree
    have hlines := splitlines_serialize pw
      (fun p hp => ⟨(hfree p hp).2.1, (hfree p hp).2.2⟩)
    simp only [parsePasswords, hlines]
    apply parse_fold_error
    refine ⟨k ++ '=' :: v, ?_, ?_⟩
    · exact List.mem_map_of_mem (fun p => p.1 ++ '=' :: p.2) hmem
    · rw [splitOn_length]
      have hk : (k ++ '=' :: v).count '=' =
          k.count '=' + ('=' :: v).count '=' := List.count_append ..
      have hkz : k.count '=' = 0 :=
        List.count_eq_zero.mpr (hfree (k, v) hmem).1
      have hvpos : 0 < v.count '=' := List.count_pos_iff.mpr heq
      rw [hk, hkz, List.count_cons]
      simp
      omega

/-- Witness for the amended C10: a single `ADMIN=secret` entry round-trips
exactly, and the same entry with value `se=cret` makes the read fail. -/
theorem cred_file_roundtrip_witness :
    parsePasswords
        (serializePasswords [("ADMIN".toList, "secret".toList)]) =
      .ok [("ADMIN".toList, "secret".toList)] ∧
    parsePasswords
        (serializePasswords [("ADMIN".toList, "se=cret".toList)]) =
      .error () := by
  constructor
  · exact (cred_file_roundtrip [("ADMIN".toList, "secret".toList)]).1
      (by decide) (by decide)
  · exact (cred_file_roundtrip [("ADMIN".toList, "se=cret".toList)]).2
      "ADMIN".toList "se=cret".toList (by decide) (by decide) (by decide)

/-! ## Checksum utility (`file_checksum`)

File content is a byte list; the digest algorithm is the semantic model of
`hashlib.md5`: `update` calls accumulate the byte stream fed so far, and
`hexdigest` is a fixed function `H` of the accumulated stream (for the real
object, MD5 rendered as lowercase hex).  What the repository's code
contributes -- and what is modelled exactly -- is the 64KiB chunked read
loop feeding the accumulator. -/

/-- The `while True: fragment = f.read(65536); if not fragment: break;
checksum.update(fragment)` loop. `acc` is the byte stream fed to the
digest so far; each `read(65536)` returns the next at-most-64KiB chunk
and the empty read at end-of-file stops the loop. -/
def md5Loop : List Nat → List Nat → List Nat
  | [], acc => acc
  | c :: rest, acc =>
    md5Loop ((c :: rest).drop 65536) (acc ++ (c :: rest).take 65536)
termination_by content _ => content.length
decreasing_by
  simp only [List.length_drop, List.length_cons]
  omega

/-- `file_checksum`: reject paths that are not regular files, otherwise
run the chunked loop from an empty accumulator and render the digest. -/
def file_checksum (H : List Nat → String) (isFile : Bool)
    (content : List Nat) : Except String String :=
  if isFile then .ok (H (md5Loop content [])) else .error "not a regular file"

/-- Modelled from the spec's words: the reference implementation that
digests the whole file content in a single `update`. -/
def file_checksum_whole (H : List Nat → String) (isFile : Bool)
    (content : List Nat) : Except String String :=
  if isFile then .ok (H content) else .error "not a regular file"

theorem md5Loop_eq_append :
    ∀ (n : Nat) (content : List Nat), content.length ≤ n →
      ∀ (acc : List Nat), md5Loop content acc = acc ++ content := by
  intro n
  induction n with
  | zero =>
    intro content hlen acc
    have hnil : content = [] := List.length_eq_zero.mp (Nat.le_zero.mp hlen)
    subst hnil
    simp [md5Loop]
  | succ n ih =>
    intro content hlen acc
    cases content with
    | nil => simp [md5Loop]
    | cons c rest =>
      rw [md5Loop]
      have hdrop : ((c :: rest).drop 65536).length ≤ n := by
        simp only [List.length_drop, List.length_cons]
        simp only [List.length_cons] at hlen
        omega
      rw [ih ((c :: rest).drop 65536) hdrop (acc ++ (c :: rest).take 65536)]
      rw [List.append_assoc, List.take_append_drop]

/-- C9 -- `file_checksum`'s 64KiB chunked digest loop feeds the incremental
accumulator exactly the file's byte stream, so for every file (of any
length, in particular beyond one 64KiB chunk) it returns the same digest
as the reference implementation that hashes the whole content at once;
non-regular-file paths fail identically in both. -/
theorem file_checksum_chunked_eq_whole (H : List Nat → String)
    (isFile : Bool) (content : List Nat) :
    file_checksum H isFile content = file_checksum_whole H isFile content := by
  simp only [file_checksum, file_checksum_whole,
    md5Loop_eq_append content.length content (Nat.le_refl _) [],
    List.nil_append]

end Tripleo
